import Mathlib

/-!
Verification of the jsonldb record store (`jsonlfile` module) against its
natural-language specification.

The repository ships the `jsonlfile` record store only through its README,
its example notebooks (with recorded outputs) and compiled callers
(`jsonldf`), so the operations below are modelled from the spec, with the
README and the recorded notebook outputs fixing the behaviour the spec
leaves open or describes incorrectly (space-preserving deletion, load
order).  A data file is modelled as a list of physical line segments, each
carrying its byte length derived from the JSON text encoding; the index is
an insertion-ordered association list, mirroring a Python `dict`.
-/

set_option autoImplicit false

namespace Jsonldb

/-- A JSON value: the tagged union of null/bool/number/string/array/object
(spec section 3, "value is a JSON-compatible object"). -/
inductive JsonValue where
  | null
  | bool (b : Bool)
  | num (n : Int)
  | str (s : String)
  | arr (xs : List JsonValue)
  | obj (fs : List (String × JsonValue))

/-- Escape one character for a JSON string literal. -/
def escChar (c : Char) : String :=
  if c = '"' ∨ c = '\\' then String.push "\\" c
  else if c = '\n' then "\\n"
  else String.singleton c

/-- A JSON string literal: quotes around the escaped characters. -/
def quoteStr (s : String) : String :=
  "\"" ++ String.join (s.data.map escChar) ++ "\""

mutual

/-- Serialize a JSON value to its compact JSON text (as `orjson` writes it:
no whitespace between tokens). -/
def serialize : JsonValue → String
  | JsonValue.null => "null"
  | JsonValue.bool b => cond b "true" "false"
  | JsonValue.num n => toString n
  | JsonValue.str s => quoteStr s
  | JsonValue.arr xs => "[" ++ serializeArr xs ++ "]"
  | JsonValue.obj fs => "\x7b" ++ serializeFields fs ++ "\x7d"

/-- Serialize the comma-separated elements of a JSON array. -/
def serializeArr : List JsonValue → String
  | [] => ""
  | [x] => serialize x
  | x :: y :: xs => serialize x ++ "," ++ serializeArr (y :: xs)

/-- Serialize the comma-separated fields of a JSON object. -/
def serializeFields : List (String × JsonValue) → String
  | [] => ""
  | [(k, v)] => quoteStr k ++ ":" ++ serialize v
  | (k, v) :: p :: ps => quoteStr k ++ ":" ++ serialize v ++ "," ++ serializeFields (p :: ps)

end

/-- Modelled from the spec (Record Codec, 4.1): byte length of the encoded
line `\x7b"key":value\x7d\n` — brace, key literal, colon, value text,
brace, newline. -/
def lineLen (k : String) (v : JsonValue) : Nat :=
  (quoteStr k).length + (serialize v).length + 4

/-- One physical line of the data file: either an encoded record line, or a
line of `n` spaces left by a space-preserving delete (README: "Delete
Operation ... Space-preserving deletion"). -/
inductive Seg where
  | record (k : String) (v : JsonValue)
  | blank (n : Nat)

/-- Byte length of a physical line, newline included. -/
def segLen : Seg → Nat
  | Seg.record k v => lineLen k v
  | Seg.blank n => n + 1

/-- The data file: its sequence of physical lines. -/
abbrev DataFile := List Seg

/-- Total byte size of the data file. -/
def fileSize (f : DataFile) : Nat := (f.map segLen).sum

/-- The physical line starting exactly at byte offset `off`, if any. -/
def segAt : DataFile → Nat → Option Seg
  | [], _ => none
  | s :: r, off =>
      if off = 0 then some s
      else if off < segLen s then none
      else segAt r (off - segLen s)

/-- Seek to byte offset `off` and decode one line: succeeds exactly when a
record line starts there (a whitespace line or a non-line-start offset does
not decode). -/
def decodeAt (f : DataFile) (off : Nat) : Option (String × JsonValue) :=
  match segAt f off with
  | some (Seg.record k v) => some (k, v)
  | _ => none

/-- Replace the physical line starting at byte offset `off`; leaves the
file unchanged when no line starts there. -/
def replaceSegAt : DataFile → Nat → Seg → DataFile
  | [], _, _ => []
  | s :: r, off, s' =>
      if off = 0 then s' :: r
      else if off < segLen s then s :: r
      else s :: replaceSegAt r (off - segLen s) s'

/-- The index: an insertion-ordered association list from key to byte
offset, mirroring the JSON-object `.idx` side file (a Python dict). -/
abbrev Index := List (String × Nat)

/-- Association-list lookup (first binding wins, as in a Python dict where
keys are unique). -/
def alookup {α : Type} : List (String × α) → String → Option α
  | [], _ => none
  | p :: r, k => if p.1 = k then some p.2 else alookup r k

/-- Python-dict assignment `d[k] = a`: an existing binding keeps its
insertion position and gets the new value; a new key is appended last. -/
def setA {α : Type} (l : List (String × α)) (k : String) (a : α) : List (String × α) :=
  if l.any (fun p => decide (p.1 = k)) then
    l.map (fun p => if p.1 = k then (k, a) else p)
  else l ++ [(k, a)]

/-- Python-dict deletion `del d[k]` (a no-op when the key is absent). -/
def eraseKey {α : Type} (l : List (String × α)) (k : String) : List (String × α) :=
  l.filter (fun p => decide (p.1 ≠ k))

/-- Modelled from the spec (Index, 4.2 `build`): linear scan of the data
file recording the offset before each record line and its key; assignment
semantics make the last occurrence of a key win. -/
def buildAux : DataFile → Nat → Index → Index
  | [], _, acc => acc
  | Seg.record k v :: r, off, acc => buildAux r (off + lineLen k v) (setA acc k off)
  | Seg.blank n :: r, off, acc => buildAux r (off + n + 1) acc

/-- Modelled from the spec: `build_jsonl_index`, rebuilding the index from
the data file alone. -/
def build_jsonl_index (f : DataFile) : Index := buildAux f 0 []

/-- A store: one data file plus its (possibly missing) index side file. -/
structure Store where
  file : DataFile
  idx : Option Index

/-- The index the operations work with: the persisted one if present, else
the one rebuilt from the data file. -/
def ensureIx (S : Store) : Index := S.idx.getD (build_jsonl_index S.file)

/-- Decode each line the index points at, in index order. -/
def loadRecords (f : DataFile) (ix : Index) : List (String × JsonValue) :=
  ix.filterMap (fun p => decodeAt f p.2)

/-- Modelled from the spec (4.3 `load`): full scan of the data file used
when the index is missing; later occurrences of a key overwrite earlier
ones. -/
def scanRecords : DataFile → List (String × JsonValue) → List (String × JsonValue)
  | [], acc => acc
  | Seg.record k v :: r, acc => scanRecords r (setA acc k v)
  | Seg.blank _ :: r, acc => scanRecords r acc

/-- Modelled from the spec (4.3 `load`): with an index, seek to each
recorded offset and decode only that line; with the index missing, full
scan, and rebuild + persist the index as a side effect. -/
def load_jsonl (S : Store) : List (String × JsonValue) × Store :=
  match S.idx with
  | some ix => (loadRecords S.file ix, S)
  | none => (scanRecords S.file [],
             { file := S.file, idx := some (build_jsonl_index S.file) })

/-- Modelled from the spec (4.3 `save`): whole-file overwrite — encode
every record in the input map's order into a fresh data file and a fresh
index. -/
def save_jsonl (M : List (String × JsonValue)) : Store :=
  let f := M.map (fun p => Seg.record p.1 p.2)
  { file := f, idx := some (build_jsonl_index f) }

/-- Modelled from the spec (4.3 `update`), one key: reuse the line in
place when the newly encoded line has the same byte length; otherwise
append the new line at end of file and repoint this key's index entry to
the appended offset (the recorded notebook outputs show the repointed key
moving to the end of the index order). -/
def updateOne (f : DataFile) (ix : Index) (k : String) (v : JsonValue) :
    DataFile × Index :=
  match alookup ix k with
  | some off =>
    match segAt f off with
    | some s =>
      if segLen s = lineLen k v then
        (replaceSegAt f off (Seg.record k v), ix)
      else
        (f ++ [Seg.record k v], eraseKey ix k ++ [(k, fileSize f)])
    | none => (f ++ [Seg.record k v], eraseKey ix k ++ [(k, fileSize f)])
  | none => (f ++ [Seg.record k v], eraseKey ix k ++ [(k, fileSize f)])

/-- Modelled from the spec (4.3 `update`): apply `updateOne` per key, then
persist the index once after the whole batch. -/
def update_jsonl (S : Store) (U : List (String × JsonValue)) : Store :=
  let st := U.foldl (fun st p => updateOne st.1 st.2 p.1 p.2) (S.file, ensureIx S)
  { file := st.1, idx := some st.2 }

/-- Space-preserving delete of one key (README: "Space-preserving
deletion"; recorded notebook output: byte size 175 before and after
deleting one of two records): overwrite the key's line with spaces and
drop the key from the index; an absent key is a no-op. -/
def deleteOne (f : DataFile) (ix : Index) (k : String) : DataFile × Index :=
  match alookup ix k with
  | some off =>
    match segAt f off with
    | some s => (replaceSegAt f off (Seg.blank (segLen s - 1)), eraseKey ix k)
    | none => (f, eraseKey ix k)
  | none => (f, ix)

/-- Modelled from the spec (4.3 `delete`) and the repository README /
notebook outputs: per-key space-preserving delete, then persist the index
once. -/
def delete_jsonl (S : Store) (K : List String) : Store :=
  let st := K.foldl (fun st k => deleteOne st.1 st.2 k) (S.file, ensureIx S)
  { file := st.1, idx := some st.2 }

/-- Lexicographic comparison of character lists (Python string `<=`). -/
def lexLe : List Char → List Char → Bool
  | [], _ => true
  | _ :: _, [] => false
  | a :: as, b :: bs => if a = b then lexLe as bs else decide (a < b)

/-- Lexicographic `≤` on the stored key text. -/
def strLe (s t : String) : Bool := lexLe s.data t.data

/-- Error kinds surfaced by the store (spec section 7): `rangeError` for
inverted select bounds, `valueError` for the tabular adapter's non-unique
index. -/
inductive StoreErr where
  | rangeError
  | valueError
  deriving DecidableEq

/-- Is key `k` inside the closed interval given by the optional bounds
(an omitted bound is unbounded on that side)? -/
def inBounds (lo hi : Option String) (k : String) : Bool :=
  (lo.all fun l => strLe l k) && (hi.all fun h => strLe k h)

/-- Modelled from the spec (4.3 `select`): sort the indexed keys once,
keep those inside the bounds, and seek+decode only the matches. -/
def selectRange (S : Store) (lo hi : Option String) : List (String × JsonValue) :=
  let ix := ensureIx S
  let sorted := List.insertionSort (fun a b : String × Nat => strLe a.1 b.1 = true) ix
  sorted.filterMap (fun p => if inBounds lo hi p.1 then decodeAt S.file p.2 else none)

/-- Modelled from the spec (4.3 `select`): fails with `rangeError` when
both bounds are given and inverted, else returns the records in the closed
key interval. -/
def select_jsonl (S : Store) (lo hi : Option String) :
    Except StoreErr (List (String × JsonValue)) :=
  match lo, hi with
  | some l, some h =>
      if strLe l h then Except.ok (selectRange S lo hi)
      else Except.error StoreErr.rangeError
  | _, _ => Except.ok (selectRange S lo hi)

/-- Offset and value of the last record line for key `k` at or after the
current scan position, offsets counted from `off`.  This follows the
spec's words for the index contract ("the last occurrence wins") and is
compared with `build_jsonl_index`. -/
def lastRecAux : DataFile → Nat → String → Option (Nat × JsonValue)
  | [], _, _ => none
  | s :: r, off, k =>
    match lastRecAux r (off + segLen s) k with
    | some p => some p
    | none =>
      match s with
      | Seg.record k' v => if k' = k then some (off, v) else none
      | Seg.blank _ => none

/-- Byte offset and value of the start of key `k`'s last occurrence in the
data file (the spec's description of what `build` records). -/
def lastRec (f : DataFile) (k : String) : Option (Nat × JsonValue) :=
  lastRecAux f 0 k

/-- The key of the record line starting at byte offset `off`, if any. -/
def keyAt (f : DataFile) (off : Nat) : Option String :=
  (decodeAt f off).map Prod.fst

/-- Index consistency with the data file: keys are unique and every entry
points at the start of a record line carrying that entry's key. -/
def validIdxB (f : DataFile) (ix : Index) : Bool :=
  decide ((ix.map Prod.fst).Nodup) &&
    ix.all (fun p => decide (keyAt f p.2 = some p.1))

/-- The value the indexed store associates to key `k`: follow the index
entry and decode the line there. -/
def getVal (f : DataFile) (ix : Index) (k : String) : Option JsonValue :=
  match alookup ix k with
  | some off => (decodeAt f off).map Prod.snd
  | none => none

/-- Propositional form of `validIdxB`: keys are unique and every index
entry points at the start of a record line carrying that entry's key. -/
def ValidIdx (f : DataFile) (ix : Index) : Prop :=
  (ix.map Prod.fst).Nodup ∧ ∀ p ∈ ix, keyAt f p.2 = some p.1

/-- The index entry for `k` exists and points at a line holding exactly
the record `(k, v)`. -/
def PointsTo (f : DataFile) (ix : Index) (k : String) (v : JsonValue) : Prop :=
  ∃ off, alookup ix k = some off ∧ segAt f off = some (Seg.record k v)

/-- The offsets `save_jsonl` records while writing the file: each record's
key paired with the running byte offset. -/
def zipOff : List (String × JsonValue) → Nat → Index
  | [], _ => []
  | p :: r, off => (p.1, off) :: zipOff r (off + lineLen p.1 p.2)

/-- The tabular adapter's input: a row-labelled table, each row a JSON
object keyed by its index label (from `jsonldf.save_jsonldf`). -/
structure DataFrame where
  rows : List (String × JsonValue)

/-- `df.index.is_unique` of the compiled `jsonldf` module. -/
def dfIndexIsUnique (df : DataFrame) : Bool :=
  decide ((df.rows.map Prod.fst).Nodup)

/-- From the compiled `jsonldf.save_jsonldf`: raise `ValueError` when the
DataFrame index is not unique, before any conversion or write (the store
is returned unchanged); otherwise `to_dict('index')` the rows and
`save_jsonl` them.  The second component is the resulting on-disk
store. -/
def save_jsonldf (old : Store) (df : DataFrame) : Except StoreErr Unit × Store :=
  if dfIndexIsUnique df then (Except.ok (), save_jsonl df.rows)
  else (Except.error StoreErr.valueError, old)

/-- A small one-field JSON object, used for concrete stores. -/
def exV (s : String) : JsonValue := JsonValue.obj [("v", JsonValue.str s)]

/-- A three-record store, as in the recorded `upsert_df` notebook run. -/
def exStore : Store :=
  save_jsonl [("user1", exV "x"), ("user2", exV "y"), ("user3", exV "z")]

/-- `exStore` after an append-style update that grows the `user1` line, as
in the recorded notebook run whose load order came back
`user2, user3, user1`. -/
def exStoreUpd : Store := update_jsonl exStore [("user1", exV "xxxx")]

/-- A two-record store, as in the recorded delete notebook run. -/
def exPair : Store := save_jsonl [("loc1", exV "a"), ("loc2", exV "b")]

/-- A table whose index labels collide, rejected by `save_jsonldf`. -/
def exDF : DataFrame := { rows := [("a", exV "x"), ("a", exV "y")] }

/-- An update batch with one grown record and one new key. -/
def exU : List (String × JsonValue) := [("user1", exV "xxxx"), ("newkey", exV "n")]

/-! ### Basic facts about physical lines and offsets -/

theorem lineLen_pos (k : String) (v : JsonValue) : 0 < lineLen k v := by
  unfold lineLen; omega

theorem segLen_pos (s : Seg) : 0 < segLen s := by
  cases s with
  | record k v => exact lineLen_pos k v
  | blank n => simp [segLen]

@[simp] theorem fileSize_nil : fileSize [] = 0 := rfl

@[simp] theorem fileSize_cons (s : Seg) (f : DataFile) :
    fileSize (s :: f) = segLen s + fileSize f := by
  simp [fileSize]

@[simp] theorem fileSize_append (f g : DataFile) :
    fileSize (f ++ g) = fileSize f + fileSize g := by
  simp [fileSize]

theorem segAt_cons (t : Seg) (f : DataFile) (off : Nat) :
    segAt (t :: f) off =
      if off = 0 then some t
      else if off < segLen t then none
      else segAt f (off - segLen t) := rfl

theorem replaceSegAt_cons (t : Seg) (f : DataFile) (off : Nat) (s' : Seg) :
    replaceSegAt (t :: f) off s' =
      if off = 0 then s' :: f
      else if off < segLen t then t :: f
      else t :: replaceSegAt f (off - segLen t) s' := rfl

theorem segAt_shift (g : DataFile) (f : DataFile) (d : Nat) :
    segAt (g ++ f) (fileSize g + d) = segAt f d := by
  induction g with
  | nil => simp
  | cons s g ih =>
    have hpos := segLen_pos s
    rw [List.cons_append, fileSize_cons, segAt_cons, if_neg (by omega), if_neg (by omega)]
    have hsub : segLen s + fileSize g + d - segLen s = fileSize g + d := by omega
    rw [hsub]
    exact ih

theorem segAt_append_of_some (f g : DataFile) (off : Nat) (s : Seg)
    (h : segAt f off = some s) : segAt (f ++ g) off = some s := by
  induction f generalizing off with
  | nil => simp [segAt] at h
  | cons t f ih =>
    rw [segAt_cons] at h
    rw [List.cons_append, segAt_cons]
    by_cases h0 : off = 0
    · rw [if_pos h0] at h ⊢; exact h
    · rw [if_neg h0] at h ⊢
      by_cases hlt : off < segLen t
      · rw [if_pos hlt] at h; exact absurd h (by simp)
      · rw [if_neg hlt] at h ⊢
        exact ih _ h

theorem replaceSegAt_of_segAt_none (f : DataFile) (off : Nat) (s' : Seg)
    (h : segAt f off = none) : replaceSegAt f off s' = f := by
  induction f generalizing off with
  | nil => rfl
  | cons t f ih =>
    rw [segAt_cons] at h
    rw [replaceSegAt_cons]
    by_cases h0 : off = 0
    · rw [if_pos h0] at h; exact absurd h (by simp)
    · rw [if_neg h0] at h ⊢
      by_cases hlt : off < segLen t
      · rw [if_pos hlt]
      · rw [if_neg hlt] at h ⊢
        rw [ih _ h]

theorem segAt_replaceSegAt_same (f : DataFile) (off : Nat) (s s' : Seg)
    (h : segAt f off = some s) :
    segAt (replaceSegAt f off s') off = some s' := by
  induction f generalizing off with
  | nil => simp [segAt] at h
  | cons t f ih =>
    rw [segAt_cons] at h
    rw [replaceSegAt_cons]
    by_cases h0 : off = 0
    · rw [if_pos h0]
      rw [segAt_cons, if_pos h0]
    · rw [if_neg h0] at h ⊢
      by_cases hlt : off < segLen t
      · rw [if_pos hlt] at h; exact absurd h (by simp)
      · rw [if_neg hlt] at h ⊢
        rw [segAt_cons, if_neg h0, if_neg hlt]
        exact ih _ h

theorem segAt_replaceSegAt_other (f : DataFile) (off off' : Nat) (s s' : Seg)
    (h : segAt f off = some s) (hlen : segLen s' = segLen s) (hne : off' ≠ off) :
    segAt (replaceSegAt f off s') off' = segAt f off' := by
  induction f generalizing off off' with
  | nil => rfl
  | cons t f ih =>
    rw [segAt_cons] at h
    rw [replaceSegAt_cons]
    by_cases h0 : off = 0
    · rw [if_pos h0] at h ⊢
      have ht : t = s := Option.some.inj h
      have hne0 : off' ≠ 0 := by omega
      rw [segAt_cons, segAt_cons, if_neg hne0, if_neg hne0, ht, hlen]
    · rw [if_neg h0] at h ⊢
      by_cases hlt : off < segLen t
      · rw [if_pos hlt] at h; exact absurd h (by simp)
      · rw [if_neg hlt] at h ⊢
        rw [segAt_cons, segAt_cons]
        by_cases h0' : off' = 0
        · rw [if_pos h0', if_pos h0']
        · rw [if_neg h0', if_neg h0']
          by_cases hlt' : off' < segLen t
          · rw [if_pos hlt', if_pos hlt']
          · rw [if_neg hlt', if_neg hlt']
            exact ih _ _ h (by omega)

theorem fileSize_replaceSegAt (f : DataFile) (off : Nat) (s s' : Seg)
    (h : segAt f off = some s) (hlen : segLen s' = segLen s) :
    fileSize (replaceSegAt f off s') = fileSize f := by
  induction f generalizing off with
  | nil => rfl
  | cons t f ih =>
    rw [segAt_cons] at h
    rw [replaceSegAt_cons]
    by_cases h0 : off = 0
    · rw [if_pos h0] at h ⊢
      have ht : t = s := Option.some.inj h
      rw [fileSize_cons, fileSize_cons, ht, hlen]
    · rw [if_neg h0] at h ⊢
      by_cases hlt : off < segLen t
      · rw [if_pos hlt] at h; exact absurd h (by simp)
      · rw [if_neg hlt] at h ⊢
        rw [fileSize_cons, fileSize_cons, ih _ h]

theorem replaceSegAt_self (f : DataFile) (off : Nat) (s : Seg)
    (h : segAt f off = some s) : replaceSegAt f off s = f := by
  induction f generalizing off with
  | nil => rfl
  | cons t f ih =>
    rw [segAt_cons] at h
    rw [replaceSegAt_cons]
    by_cases h0 : off = 0
    · rw [if_pos h0] at h ⊢
      rw [Option.some.inj h]
    · rw [if_neg h0] at h ⊢
      by_cases hlt : off < segLen t
      · rw [if_pos hlt] at h; exact absurd h (by simp)
      · rw [if_neg hlt] at h ⊢
        rw [ih _ h]

/-! ### Association-list (Python dict) lemmas -/

theorem alookup_nil {α : Type} (k : String) : alookup ([] : List (String × α)) k = none := rfl

theorem alookup_cons {α : Type} (p : String × α) (l : List (String × α)) (k : String) :
    alookup (p :: l) k = if p.1 = k then some p.2 else alookup l k := rfl

theorem alookup_append {α : Type} (l₁ l₂ : List (String × α)) (k : String) :
    alookup (l₁ ++ l₂) k =
      match alookup l₁ k with
      | some a => some a
      | none => alookup l₂ k := by
  induction l₁ with
  | nil => rfl
  | cons p l₁ ih =>
    rw [List.cons_append, alookup_cons, alookup_cons]
    by_cases hp : p.1 = k
    · rw [if_pos hp, if_pos hp]
    · rw [if_neg hp, if_neg hp, ih]

theorem alookup_eraseKey_self {α : Type} (l : List (String × α)) (k : String) :
    alookup (eraseKey l k) k = none := by
  induction l with
  | nil => rfl
  | cons p l ih =>
    unfold eraseKey at ih ⊢
    rw [List.filter_cons]
    by_cases hp : p.1 = k
    · rw [if_neg (by simp [hp])]
      exact ih
    · rw [if_pos (by simp [hp]), alookup_cons, if_neg hp]
      exact ih

theorem alookup_eraseKey_other {α : Type} (l : List (String × α)) (k k' : String)
    (h : k' ≠ k) : alookup (eraseKey l k) k' = alookup l k' := by
  induction l with
  | nil => rfl
  | cons p l ih =>
    unfold eraseKey at ih ⊢
    by_cases hp : p.1 = k
    · rw [List.filter_cons, if_neg (by simp [hp]), ih, alookup_cons,
          if_neg (fun hc : p.1 = k' => h (hc.symm.trans hp))]
    · rw [List.filter_cons, if_pos (by simp [hp]), alookup_cons, alookup_cons]
      by_cases hp' : p.1 = k'
      · rw [if_pos hp', if_pos hp']
      · rw [if_neg hp', if_neg hp']
        exact ih

theorem eraseKey_of_alookup_none {α : Type} (l : List (String × α)) (k : String)
    (h : alookup l k = none) : eraseKey l k = l := by
  induction l with
  | nil => rfl
  | cons p l ih =>
    rw [alookup_cons] at h
    by_cases hp : p.1 = k
    · rw [if_pos hp] at h; exact absurd h (by simp)
    · rw [if_neg hp] at h
      unfold eraseKey at ih ⊢
      rw [List.filter_cons, if_pos (by simp [hp]), ih h]

theorem keys_eraseKey_sublist {α : Type} (l : List (String × α)) (k : String) :
    ((eraseKey l k).map Prod.fst).Sublist (l.map Prod.fst) :=
  List.Sublist.map Prod.fst (List.filter_sublist l)

theorem not_mem_keys_eraseKey {α : Type} (l : List (String × α)) (k : String) :
    k ∉ (eraseKey l k).map Prod.fst := by
  intro hmem
  rcases List.mem_map.mp hmem with ⟨p, hp, hpk⟩
  have := List.of_mem_filter hp
  rw [hpk] at this
  simp at this

theorem setA_of_not_mem {α : Type} (l : List (String × α)) (k : String) (a : α)
    (h : k ∉ l.map Prod.fst) : setA l k a = l ++ [(k, a)] := by
  unfold setA
  rw [if_neg]
  intro hc
  rcases List.any_eq_true.mp hc with ⟨p, hp, hpk⟩
  exact h (List.mem_map.mpr ⟨p, hp, of_decide_eq_true hpk⟩)

theorem alookup_eq_none_of_forall {α : Type} (l : List (String × α)) (k : String)
    (h : ∀ p ∈ l, p.1 ≠ k) : alookup l k = none := by
  induction l with
  | nil => rfl
  | cons p l ih =>
    rw [alookup_cons, if_neg (h p (List.mem_cons_self p l))]
    exact ih (fun q hq => h q (List.mem_cons_of_mem p hq))

theorem alookup_setA_self {α : Type} (l : List (String × α)) (k : String) (a : α) :
    alookup (setA l k a) k = some a := by
  unfold setA
  by_cases hc : l.any (fun p => decide (p.1 = k)) = true
  · rw [if_pos hc]
    rcases List.any_eq_true.mp hc with ⟨q, hq, hqk⟩
    have hqk' : q.1 = k := of_decide_eq_true hqk
    clear hc hqk
    induction l with
    | nil => simp at hq
    | cons p l ih =>
      rw [List.map_cons]
      by_cases hp : p.1 = k
      · rw [if_pos hp, alookup_cons, if_pos rfl]
      · rw [if_neg hp, alookup_cons, if_neg hp]
        rcases List.mem_cons.mp hq with hq1 | hq2
        · exact absurd (hq1 ▸ hqk') hp
        · exact ih hq2
  · have hnone : alookup l k = none := by
      apply alookup_eq_none_of_forall
      intro p hp hpk
      exact hc (List.any_eq_true.mpr ⟨p, hp, decide_eq_true hpk⟩)
    rw [if_neg hc, alookup_append, hnone, alookup_cons, if_pos rfl]

theorem alookup_setA_other {α : Type} (l : List (String × α)) (k k' : String) (a : α)
    (h : k' ≠ k) : alookup (setA l k a) k' = alookup l k' := by
  unfold setA
  by_cases hc : l.any (fun p => decide (p.1 = k)) = true
  · rw [if_pos hc]
    clear hc
    induction l with
    | nil => rfl
    | cons p l ih =>
      rw [List.map_cons]
      by_cases hp : p.1 = k
      · rw [if_pos hp, alookup_cons, alookup_cons,
            if_neg (fun hc' : (k, a).1 = k' => h (hc'.symm.trans rfl)),
            if_neg (fun hc' : p.1 = k' => h (hc'.symm.trans hp)), ih]
      · rw [if_neg hp, alookup_cons, alookup_cons]
        by_cases hp' : p.1 = k'
        · rw [if_pos hp', if_pos hp']
        · rw [if_neg hp', if_neg hp', ih]
  · rw [if_neg hc, alookup_append]
    cases hl : alookup l k' with
    | some a' => rfl
    | none =>
      rw [alookup_cons, if_neg (fun hc' : (k, a).1 = k' => h hc'.symm)]
      rfl

/-! ### Index validity -/

theorem validIdxB_iff (f : DataFile) (ix : Index) :
    validIdxB f ix = true ↔ ValidIdx f ix := by
  unfold validIdxB ValidIdx
  rw [Bool.and_eq_true, decide_eq_true_iff, List.all_eq_true]
  constructor
  · rintro ⟨h1, h2⟩
    exact ⟨h1, fun p hp => of_decide_eq_true (h2 p hp)⟩
  · rintro ⟨h1, h2⟩
    exact ⟨h1, fun p hp => decide_eq_true (h2 p hp)⟩

theorem ValidIdx.tail {f : DataFile} {p : String × Nat} {ix : Index}
    (h : ValidIdx f (p :: ix)) : ValidIdx f ix :=
  ⟨(List.nodup_cons.mp h.1).2, fun q hq => h.2 q (List.mem_cons_of_mem p hq)⟩

theorem alookup_mem {α : Type} {l : List (String × α)} {k : String} {a : α}
    (h : alookup l k = some a) : (k, a) ∈ l := by
  induction l with
  | nil => simp [alookup_nil] at h
  | cons p l ih =>
    rw [alookup_cons] at h
    by_cases hp : p.1 = k
    · rw [if_pos hp] at h
      have : p = (k, a) := by
        rcases p with ⟨pk, pa⟩
        simp only [Option.some.injEq] at h
        simp_all
      exact this ▸ List.mem_cons_self p l
    · rw [if_neg hp] at h
      exact List.mem_cons_of_mem p (ih h)

theorem mem_alookup {α : Type} {l : List (String × α)} {p : String × α}
    (hnd : (l.map Prod.fst).Nodup) (h : p ∈ l) : alookup l p.1 = some p.2 := by
  induction l with
  | nil => simp at h
  | cons q l ih =>
    rw [List.map_cons, List.nodup_cons] at hnd
    rcases List.mem_cons.mp h with h1 | h2
    · rw [h1, alookup_cons, if_pos rfl]
    · rw [alookup_cons]
      have hq : ¬ q.1 = p.1 := by
        intro hc
        exact hnd.1 (hc ▸ List.mem_map.mpr ⟨p, h2, rfl⟩)
      rw [if_neg hq]
      exact ih hnd.2 h2

theorem alookup_keyAt {f : DataFile} {ix : Index} {k : String} {off : Nat}
    (hv : ValidIdx f ix) (h : alookup ix k = some off) : keyAt f off = some k :=
  hv.2 (k, off) (alookup_mem h)

/-- Under a valid index, distinct keys are indexed at distinct offsets. -/
theorem valid_offset_injective {f : DataFile} {ix : Index} {k k' : String}
    {off off' : Nat} (hv : ValidIdx f ix) (h : alookup ix k = some off)
    (h' : alookup ix k' = some off') (hne : k ≠ k') : off ≠ off' := by
  intro hc
  have h1 := alookup_keyAt hv h
  have h2 := alookup_keyAt hv h'
  rw [hc, h2] at h1
  exact hne (Option.some.inj h1).symm

theorem keyAt_eq_some_iff {f : DataFile} {off : Nat} {k : String} :
    keyAt f off = some k ↔ ∃ v, segAt f off = some (Seg.record k v) := by
  unfold keyAt decodeAt
  cases hs : segAt f off with
  | none => simp
  | some s =>
    cases s with
    | record k' v => simp
    | blank n => simp

/-! ### Loading through a valid index -/

theorem loadRecords_nil (f : DataFile) : loadRecords f [] = [] := rfl

theorem loadRecords_cons (f : DataFile) (p : String × Nat) (ix : Index) :
    loadRecords f (p :: ix) =
      match decodeAt f p.2 with
      | some r => r :: loadRecords f ix
      | none => loadRecords f ix := by
  unfold loadRecords
  rw [List.filterMap_cons]
  cases decodeAt f p.2 <;> rfl

/-- With a valid index, `load` yields one record per index entry, with the
entry's key, in index order. -/
theorem loadRecords_keys {f : DataFile} {ix : Index}
    (hv : ∀ p ∈ ix, keyAt f p.2 = some p.1) :
    (loadRecords f ix).map Prod.fst = ix.map Prod.fst := by
  induction ix with
  | nil => rfl
  | cons p ix ih =>
    have hk := hv p (List.mem_cons_self p ix)
    rcases keyAt_eq_some_iff.mp hk with ⟨v, hs⟩
    rw [loadRecords_cons]
    unfold decodeAt
    rw [hs, List.map_cons, List.map_cons]
    rw [ih (fun q hq => hv q (List.mem_cons_of_mem p hq))]

/-- With a valid index, looking a key up in the loaded record list agrees
with following the index entry and decoding there. -/
theorem alookup_loadRecords {f : DataFile} {ix : Index} (hv : ValidIdx f ix)
    (k : String) : alookup (loadRecords f ix) k = getVal f ix k := by
  induction ix with
  | nil => rfl
  | cons p ix ih =>
    have hk := hv.2 p (List.mem_cons_self p ix)
    rcases keyAt_eq_some_iff.mp hk with ⟨v, hs⟩
    have hdec : decodeAt f p.2 = some (p.1, v) := by unfold decodeAt; rw [hs]
    rw [loadRecords_cons, hdec]
    unfold getVal
    rw [alookup_cons, alookup_cons]
    by_cases hp : p.1 = k
    · rw [if_pos hp, if_pos hp]
      show some (p.1, v).2 = (decodeAt f p.2).map Prod.snd
      rw [hdec]
      rfl
    · rw [if_neg hp, if_neg hp]
      exact (ih hv.tail).trans (by unfold getVal; rfl)

/-! ### The built index records the last occurrence of each key -/

theorem keys_setA {α : Type} (l : List (String × α)) (k : String) (a : α) :
    (setA l k a).map Prod.fst = l.map Prod.fst ∨
      (setA l k a).map Prod.fst = l.map Prod.fst ++ [k] := by
  unfold setA
  by_cases hc : l.any (fun p => decide (p.1 = k)) = true
  · left
    rw [if_pos hc, List.map_map]
    apply List.map_congr_left
    intro p hp
    by_cases hpk : p.1 = k
    · simp [hpk]
    · simp [hpk]
  · right
    rw [if_neg hc]
    simp

theorem nodup_keys_setA {α : Type} (l : List (String × α)) (k : String) (a : α)
    (hnd : (l.map Prod.fst).Nodup) : ((setA l k a).map Prod.fst).Nodup := by
  rcases keys_setA l k a with h | h
  · rw [h]; exact hnd
  · rw [h]
    unfold setA at h
    by_cases hc : l.any (fun p => decide (p.1 = k)) = true
    · rw [if_pos hc] at h
      exfalso
      have := congrArg List.length h
      simp at this
    · rw [List.nodup_append]
      refine ⟨hnd, List.nodup_singleton k, ?_⟩
      intro x hx hx'
      rcases List.mem_map.mp hx with ⟨p, hp, hpk⟩
      rw [List.mem_singleton] at hx'
      apply hc
      exact List.any_eq_true.mpr ⟨p, hp, decide_eq_true (by rw [hpk, hx'])⟩

theorem alookup_buildAux (f : DataFile) (c : Nat) (acc : Index) (k : String) :
    alookup (buildAux f c acc) k =
      match lastRecAux f c k with
      | some p => some p.1
      | none => alookup acc k := by
  induction f generalizing c acc with
  | nil => rfl
  | cons s f ih =>
    cases s with
    | record k' v =>
      show alookup (buildAux f (c + lineLen k' v) (setA acc k' c)) k = _
      rw [ih]
      show _ = match
          (match lastRecAux f (c + segLen (Seg.record k' v)) k with
           | some p => some p
           | none => if k' = k then some (c, v) else none) with
        | some p => some p.1
        | none => alookup acc k
      have hseg : segLen (Seg.record k' v) = lineLen k' v := rfl
      rw [hseg]
      cases hrest : lastRecAux f (c + lineLen k' v) k with
      | some p => rfl
      | none =>
        by_cases hk : k' = k
        · rw [if_pos hk, hk, alookup_setA_self]
        · rw [if_neg hk, alookup_setA_other acc k' k c (fun hc => hk hc.symm)]
    | blank n =>
      show alookup (buildAux f (c + n + 1) acc) k = _
      rw [ih]
      show _ = match
          (match lastRecAux f (c + segLen (Seg.blank n)) k with
           | some p => some p
           | none => none) with
        | some p => some p.1
        | none => alookup acc k
      have hseg : c + segLen (Seg.blank n) = c + n + 1 := by
        show c + (n + 1) = c + n + 1
        omega
      rw [hseg]
      cases hrest : lastRecAux f (c + n + 1) k with
      | some p => rfl
      | none => rfl

theorem alookup_build (f : DataFile) (k : String) :
    alookup (build_jsonl_index f) k = (lastRec f k).map Prod.fst := by
  unfold build_jsonl_index lastRec
  rw [alookup_buildAux]
  cases lastRecAux f 0 k with
  | some p => rfl
  | none => rfl

theorem lastRecAux_cons (s : Seg) (r : DataFile) (c : Nat) (k : String) :
    lastRecAux (s :: r) c k =
      match lastRecAux r (c + segLen s) k with
      | some p => some p
      | none =>
        match s with
        | Seg.record k' v => if k' = k then some (c, v) else none
        | Seg.blank _ => none := rfl

theorem lastRecAux_segAt {f : DataFile} {c : Nat} {k : String} {o : Nat} {v : JsonValue}
    (h : lastRecAux f c k = some (o, v)) :
    ∃ d, o = c + d ∧ segAt f d = some (Seg.record k v) := by
  induction f generalizing c with
  | nil => simp [lastRecAux] at h
  | cons s f ih =>
    rw [lastRecAux_cons] at h
    cases hrest : lastRecAux f (c + segLen s) k with
    | some p =>
      rw [hrest] at h
      have hp : p = (o, v) := Option.some.inj h
      rcases ih (hp ▸ hrest) with ⟨d, hd, hseg⟩
      refine ⟨segLen s + d, by omega, ?_⟩
      rw [segAt_cons, if_neg (by have := segLen_pos s; omega), if_neg (by omega)]
      have : segLen s + d - segLen s = d := by omega
      rw [this]
      exact hseg
    | none =>
      rw [hrest] at h
      cases s with
      | record k' v' =>
        have h' : (if k' = k then some (c, v') else none) = some (o, v) := h
        by_cases hk : k' = k
        · rw [if_pos hk] at h'
          have heq : (c, v') = (o, v) := Option.some.inj h'
          have hc : c = o := congrArg Prod.fst heq
          have hv : v' = v := congrArg Prod.snd heq
          exact ⟨0, by omega, by rw [segAt_cons, if_pos rfl, hk, hv]⟩
        · rw [if_neg hk] at h'
          exact absurd h' (by simp)
      | blank n =>
        have h' : (none : Option (Nat × JsonValue)) = some (o, v) := h
        exact absurd h' (by simp)

theorem nodup_keys_buildAux (f : DataFile) (c : Nat) (acc : Index)
    (hnd : (acc.map Prod.fst).Nodup) :
    ((buildAux f c acc).map Prod.fst).Nodup := by
  induction f generalizing c acc with
  | nil => exact hnd
  | cons s f ih =>
    cases s with
    | record k v => exact ih _ _ (nodup_keys_setA acc k c hnd)
    | blank n => exact ih _ _ hnd

theorem valid_build (f : DataFile) : ValidIdx f (build_jsonl_index f) := by
  have hnd : ((build_jsonl_index f).map Prod.fst).Nodup :=
    nodup_keys_buildAux f 0 [] List.nodup_nil
  refine ⟨hnd, ?_⟩
  intro p hp
  have hlk : alookup (build_jsonl_index f) p.1 = some p.2 := mem_alookup hnd hp
  rw [alookup_build] at hlk
  cases hlast : lastRec f p.1 with
  | none => rw [hlast] at hlk; exact absurd hlk (by simp)
  | some q =>
    rw [hlast] at hlk
    have hq1 : q.1 = p.2 := Option.some.inj hlk
    rcases lastRecAux_segAt (show lastRecAux f 0 p.1 = some (q.1, q.2) from hlast) with
      ⟨d, hd, hseg⟩
    have hd' : d = p.2 := by omega
    rw [keyAt_eq_some_iff]
    exact ⟨q.2, hd' ▸ hseg⟩

/-! ### Full scan agrees with loading through the rebuilt index -/

theorem alookup_scanRecords (f : DataFile) (acc : List (String × JsonValue))
    (c : Nat) (k : String) :
    alookup (scanRecords f acc) k =
      match lastRecAux f c k with
      | some p => some p.2
      | none => alookup acc k := by
  induction f generalizing acc c with
  | nil => rfl
  | cons s f ih =>
    rw [lastRecAux_cons]
    cases s with
    | record k' v =>
      show alookup (scanRecords f (setA acc k' v)) k = _
      rw [ih _ (c + segLen (Seg.record k' v))]
      cases hrest : lastRecAux f (c + segLen (Seg.record k' v)) k with
      | some p => rfl
      | none =>
        show alookup (setA acc k' v) k =
          match (if k' = k then some (c, v) else none : Option (Nat × JsonValue)) with
          | some p => some p.2
          | none => alookup acc k
        by_cases hk : k' = k
        · rw [if_pos hk, hk, alookup_setA_self]
        · rw [if_neg hk, alookup_setA_other acc k' k v (fun hc => hk hc.symm)]
    | blank n =>
      show alookup (scanRecords f acc) k = _
      rw [ih acc (c + segLen (Seg.blank n))]
      cases hrest : lastRecAux f (c + segLen (Seg.blank n)) k with
      | some p => rfl
      | none => rfl

theorem getVal_build (f : DataFile) (k : String) :
    getVal f (build_jsonl_index f) k = (lastRec f k).map Prod.snd := by
  unfold getVal
  rw [alookup_build]
  cases hlast : lastRec f k with
  | none => rfl
  | some q =>
    show (decodeAt f q.1).map Prod.snd = some q.2
    rcases lastRecAux_segAt (show lastRecAux f 0 k = some (q.1, q.2) from hlast) with
      ⟨d, hd, hseg⟩
    have hd' : d = q.1 := by omega
    have hseg' : segAt f q.1 = some (Seg.record k q.2) := by rw [← hd']; exact hseg
    unfold decodeAt
    rw [hseg']
    rfl

theorem alookup_scan_eq_indexed (f : DataFile) (k : String) :
    alookup (scanRecords f []) k = getVal f (build_jsonl_index f) k := by
  rw [getVal_build, alookup_scanRecords f [] 0 k]
  unfold lastRec
  cases lastRecAux f 0 k with
  | some p => rfl
  | none => rfl

/-! ### Save writes records at the offsets its index records -/

theorem buildAux_save (M : List (String × JsonValue)) (c : Nat) (acc : Index)
    (hnd : (M.map Prod.fst).Nodup)
    (hdisj : ∀ k ∈ M.map Prod.fst, k ∉ acc.map Prod.fst) :
    buildAux (M.map (fun p => Seg.record p.1 p.2)) c acc = acc ++ zipOff M c := by
  induction M generalizing c acc with
  | nil => simp [buildAux, zipOff]
  | cons p M ih =>
    show buildAux (M.map _) (c + lineLen p.1 p.2) (setA acc p.1 c) = _
    rw [List.map_cons, List.nodup_cons] at hnd
    have hp : p.1 ∉ acc.map Prod.fst :=
      hdisj p.1 (List.mem_map.mpr ⟨p, List.mem_cons_self p M, rfl⟩)
    rw [setA_of_not_mem acc p.1 c hp]
    rw [ih _ _ hnd.2]
    · show _ = acc ++ ((p.1, c) :: zipOff M (c + lineLen p.1 p.2))
      rw [List.append_assoc]
      rfl
    · intro k hk
      rw [List.map_append]
      intro hmem
      rcases List.mem_append.mp hmem with h1 | h2
      · exact hdisj k (List.mem_map.mpr (by
          rcases List.mem_map.mp hk with ⟨q, hq, hqk⟩
          exact ⟨q, List.mem_cons_of_mem p hq, hqk⟩)) h1
      · rw [List.map_singleton, List.mem_singleton] at h2
        exact hnd.1 (h2 ▸ hk)

theorem build_save (M : List (String × JsonValue)) (hnd : (M.map Prod.fst).Nodup) :
    build_jsonl_index (M.map (fun p => Seg.record p.1 p.2)) = zipOff M 0 := by
  unfold build_jsonl_index
  rw [buildAux_save M 0 [] hnd (by simp)]
  rfl

theorem loadRecords_zipOff (M : List (String × JsonValue)) (g : DataFile) :
    loadRecords (g ++ M.map (fun p => Seg.record p.1 p.2)) (zipOff M (fileSize g)) = M := by
  induction M generalizing g with
  | nil => rfl
  | cons p M ih =>
    show loadRecords _ ((p.1, fileSize g) :: zipOff M (fileSize g + lineLen p.1 p.2)) = _
    rw [loadRecords_cons]
    have hdec : decodeAt (g ++ (p :: M).map (fun p => Seg.record p.1 p.2)) (fileSize g) =
        some (p.1, p.2) := by
      unfold decodeAt
      have : segAt (g ++ (p :: M).map (fun p => Seg.record p.1 p.2)) (fileSize g + 0) =
          segAt ((p :: M).map (fun p => Seg.record p.1 p.2)) 0 := segAt_shift _ _ 0
      rw [Nat.add_zero] at this
      rw [this]
      rfl
    rw [hdec]
    have hre : g ++ (p :: M).map (fun q => Seg.record q.1 q.2) =
        (g ++ [Seg.record p.1 p.2]) ++ M.map (fun q => Seg.record q.1 q.2) := by
      rw [List.map_cons, List.append_assoc]
      rfl
    have hsz : fileSize (g ++ [Seg.record p.1 p.2]) = fileSize g + lineLen p.1 p.2 := by
      rw [fileSize_append]
      rfl
    rw [hre, ← hsz, ih (g ++ [Seg.record p.1 p.2])]

/-! ### The update decision rule -/

theorem updateOne_inplace {f : DataFile} {ix : Index} {k : String} {v : JsonValue}
    {off : Nat} {s : Seg} (h1 : alookup ix k = some off) (h2 : segAt f off = some s)
    (h3 : segLen s = lineLen k v) :
    updateOne f ix k v = (replaceSegAt f off (Seg.record k v), ix) := by
  unfold updateOne
  rw [h1]
  show (match segAt f off with
        | some s =>
          if segLen s = lineLen k v then (replaceSegAt f off (Seg.record k v), ix)
          else (f ++ [Seg.record k v], eraseKey ix k ++ [(k, fileSize f)])
        | none => (f ++ [Seg.record k v], eraseKey ix k ++ [(k, fileSize f)])) = _
  rw [h2]
  show (if segLen s = lineLen k v then (replaceSegAt f off (Seg.record k v), ix)
        else (f ++ [Seg.record k v], eraseKey ix k ++ [(k, fileSize f)])) = _
  rw [if_pos h3]

theorem updateOne_grow {f : DataFile} {ix : Index} {k : String} {v : JsonValue}
    {off : Nat} {s : Seg} (h1 : alookup ix k = some off) (h2 : segAt f off = some s)
    (h3 : segLen s ≠ lineLen k v) :
    updateOne f ix k v = (f ++ [Seg.record k v], eraseKey ix k ++ [(k, fileSize f)]) := by
  unfold updateOne
  rw [h1]
  show (match segAt f off with
        | some s =>
          if segLen s = lineLen k v then (replaceSegAt f off (Seg.record k v), ix)
          else (f ++ [Seg.record k v], eraseKey ix k ++ [(k, fileSize f)])
        | none => (f ++ [Seg.record k v], eraseKey ix k ++ [(k, fileSize f)])) = _
  rw [h2]
  show (if segLen s = lineLen k v then (replaceSegAt f off (Seg.record k v), ix)
        else (f ++ [Seg.record k v], eraseKey ix k ++ [(k, fileSize f)])) = _
  rw [if_neg h3]

theorem updateOne_badoff {f : DataFile} {ix : Index} {k : String} {v : JsonValue}
    {off : Nat} (h1 : alookup ix k = some off) (h2 : segAt f off = none) :
    updateOne f ix k v = (f ++ [Seg.record k v], eraseKey ix k ++ [(k, fileSize f)]) := by
  unfold updateOne
  rw [h1]
  show (match segAt f off with
        | some s =>
          if segLen s = lineLen k v then (replaceSegAt f off (Seg.record k v), ix)
          else (f ++ [Seg.record k v], eraseKey ix k ++ [(k, fileSize f)])
        | none => (f ++ [Seg.record k v], eraseKey ix k ++ [(k, fileSize f)])) = _
  rw [h2]

theorem updateOne_new {f : DataFile} {ix : Index} {k : String} {v : JsonValue}
    (h1 : alookup ix k = none) :
    updateOne f ix k v = (f ++ [Seg.record k v], eraseKey ix k ++ [(k, fileSize f)]) := by
  unfold updateOne
  rw [h1]

theorem keyAt_append {f g : DataFile} {off : Nat} {k : String}
    (h : keyAt f off = some k) : keyAt (f ++ g) off = some k := by
  rcases keyAt_eq_some_iff.mp h with ⟨v, hs⟩
  exact keyAt_eq_some_iff.mpr ⟨v, segAt_append_of_some f g off _ hs⟩

theorem segAt_append_start (f : DataFile) (s : Seg) :
    segAt (f ++ [s]) (fileSize f) = some s := by
  have := segAt_shift f [s] 0
  rw [Nat.add_zero] at this
  rw [this]
  rfl

/-- Validity of the append-and-repoint result state. -/
theorem append_repoint_valid {f : DataFile} {ix : Index} (k : String) (v : JsonValue)
    (hv : ValidIdx f ix) :
    ValidIdx (f ++ [Seg.record k v]) (eraseKey ix k ++ [(k, fileSize f)]) := by
  constructor
  · rw [List.map_append, List.nodup_append]
    refine ⟨List.Nodup.sublist (keys_eraseKey_sublist ix k) hv.1, List.nodup_singleton k, ?_⟩
    intro x hx hx'
    rw [List.map_singleton, List.mem_singleton] at hx'
    have hx'' : x = k := hx'
    exact not_mem_keys_eraseKey ix k (hx'' ▸ hx)
  · intro p hp
    rcases List.mem_append.mp hp with h1 | h2
    · have hpix : p ∈ ix := List.mem_of_mem_filter h1
      exact keyAt_append (hv.2 p hpix)
    · rw [List.mem_singleton] at h2
      rw [h2]
      show keyAt (f ++ [Seg.record k v]) (fileSize f) = some k
      exact keyAt_eq_some_iff.mpr ⟨v, segAt_append_start f _⟩

theorem updateOne_valid {f : DataFile} {ix : Index} (k : String) (v : JsonValue)
    (hv : ValidIdx f ix) :
    ValidIdx (updateOne f ix k v).1 (updateOne f ix k v).2 := by
  cases h1 : alookup ix k with
  | none => rw [updateOne_new h1]; exact append_repoint_valid k v hv
  | some off =>
    cases h2 : segAt f off with
    | none => rw [updateOne_badoff h1 h2]; exact append_repoint_valid k v hv
    | some s =>
      by_cases h3 : segLen s = lineLen k v
      · rw [updateOne_inplace h1 h2 h3]
        refine ⟨hv.1, ?_⟩
        intro p hp
        show keyAt (replaceSegAt f off (Seg.record k v)) p.2 = some p.1
        by_cases hoff : p.2 = off
        · have hpk : keyAt f off = some p.1 := hoff ▸ hv.2 p hp
          have hkk : keyAt f off = some k := alookup_keyAt hv h1
          have hpk' : p.1 = k := Option.some.inj (hpk.symm.trans hkk)
          rw [hoff, hpk']
          exact keyAt_eq_some_iff.mpr ⟨v, segAt_replaceSegAt_same f off s _ h2⟩
        · have hfr := segAt_replaceSegAt_other f off p.2 s (Seg.record k v) h2
            (by show lineLen k v = segLen s; exact h3.symm) hoff
          have hold : keyAt f p.2 = some p.1 := hv.2 p hp
          rcases keyAt_eq_some_iff.mp hold with ⟨w, hsw⟩
          exact keyAt_eq_some_iff.mpr ⟨w, by rw [hfr]; exact hsw⟩
      · rw [updateOne_grow h1 h2 h3]; exact append_repoint_valid k v hv

theorem updateOne_pointsTo_self (f : DataFile) (ix : Index) (k : String) (v : JsonValue) :
    PointsTo (updateOne f ix k v).1 (updateOne f ix k v).2 k v := by
  cases h1 : alookup ix k with
  | none =>
    rw [updateOne_new h1]
    refine ⟨fileSize f, ?_, segAt_append_start f _⟩
    rw [alookup_append, alookup_eraseKey_self]
    show alookup [(k, fileSize f)] k = some (fileSize f)
    rw [alookup_cons, if_pos rfl]
  | some off =>
    cases h2 : segAt f off with
    | none =>
      rw [updateOne_badoff h1 h2]
      refine ⟨fileSize f, ?_, segAt_append_start f _⟩
      rw [alookup_append, alookup_eraseKey_self]
      show alookup [(k, fileSize f)] k = some (fileSize f)
      rw [alookup_cons, if_pos rfl]
    | some s =>
      by_cases h3 : segLen s = lineLen k v
      · rw [updateOne_inplace h1 h2 h3]
        exact ⟨off, h1, segAt_replaceSegAt_same f off s _ h2⟩
      · rw [updateOne_grow h1 h2 h3]
        refine ⟨fileSize f, ?_, segAt_append_start f _⟩
        rw [alookup_append, alookup_eraseKey_self]
        show alookup [(k, fileSize f)] k = some (fileSize f)
        rw [alookup_cons, if_pos rfl]

theorem updateOne_pointsTo_frame {f : DataFile} {ix : Index} {k k' : String}
    {v v' : JsonValue} (hv : ValidIdx f ix) (hne : k' ≠ k)
    (hpt : PointsTo f ix k' v') :
    PointsTo (updateOne f ix k v).1 (updateOne f ix k v).2 k' v' := by
  rcases hpt with ⟨off', hl', hs'⟩
  cases h1 : alookup ix k with
  | none =>
    rw [updateOne_new h1]
    refine ⟨off', ?_, segAt_append_of_some f _ off' _ hs'⟩
    rw [alookup_append, alookup_eraseKey_other ix k k' hne, hl']
  | some off =>
    cases h2 : segAt f off with
    | none =>
      rw [updateOne_badoff h1 h2]
      refine ⟨off', ?_, segAt_append_of_some f _ off' _ hs'⟩
      rw [alookup_append, alookup_eraseKey_other ix k k' hne, hl']
    | some s =>
      by_cases h3 : segLen s = lineLen k v
      · rw [updateOne_inplace h1 h2 h3]
        refine ⟨off', hl', ?_⟩
        have hoff : off' ≠ off := valid_offset_injective hv hl' h1 hne
        rw [segAt_replaceSegAt_other f off off' s (Seg.record k v) h2 (by show lineLen k v = segLen s; exact h3.symm) hoff]
        exact hs'
      · rw [updateOne_grow h1 h2 h3]
        refine ⟨off', ?_, segAt_append_of_some f _ off' _ hs'⟩
        rw [alookup_append, alookup_eraseKey_other ix k k' hne, hl']

theorem updateOne_size_le (f : DataFile) (ix : Index) (k : String) (v : JsonValue) :
    fileSize f ≤ fileSize (updateOne f ix k v).1 := by
  cases h1 : alookup ix k with
  | none => rw [updateOne_new h1]; show fileSize f ≤ fileSize (f ++ _); simp
  | some off =>
    cases h2 : segAt f off with
    | none => rw [updateOne_badoff h1 h2]; show fileSize f ≤ fileSize (f ++ _); simp
    | some s =>
      by_cases h3 : segLen s = lineLen k v
      · rw [updateOne_inplace h1 h2 h3]
        show fileSize f ≤ fileSize (replaceSegAt f off (Seg.record k v))
        rw [fileSize_replaceSegAt f off s _ h2 (by show lineLen k v = segLen s; exact h3.symm)]
      · rw [updateOne_grow h1 h2 h3]
        show fileSize f ≤ fileSize (f ++ _)
        simp

theorem updateOne_fix {f : DataFile} {ix : Index} {k : String} {v : JsonValue}
    (hpt : PointsTo f ix k v) : updateOne f ix k v = (f, ix) := by
  rcases hpt with ⟨off, hl, hs⟩
  rw [updateOne_inplace hl hs rfl, replaceSegAt_self f off _ hs]

/-! ### Batched update -/

theorem updateFold_valid (U : List (String × JsonValue)) (st : DataFile × Index)
    (hv : ValidIdx st.1 st.2) :
    ValidIdx (U.foldl (fun st p => updateOne st.1 st.2 p.1 p.2) st).1
      (U.foldl (fun st p => updateOne st.1 st.2 p.1 p.2) st).2 := by
  induction U generalizing st with
  | nil => exact hv
  | cons q U ih =>
    rw [List.foldl_cons]
    exact ih _ (updateOne_valid q.1 q.2 hv)

theorem updateFold_size_le (U : List (String × JsonValue)) (st : DataFile × Index) :
    fileSize st.1 ≤ fileSize (U.foldl (fun st p => updateOne st.1 st.2 p.1 p.2) st).1 := by
  induction U generalizing st with
  | nil => exact Nat.le_refl _
  | cons q U ih =>
    rw [List.foldl_cons]
    exact Nat.le_trans (updateOne_size_le st.1 st.2 q.1 q.2) (ih _)

theorem updateFold_pointsTo_frame (U : List (String × JsonValue)) (st : DataFile × Index)
    {k : String} {v : JsonValue} (hv : ValidIdx st.1 st.2)
    (hpt : PointsTo st.1 st.2 k v) (hk : k ∉ U.map Prod.fst) :
    PointsTo (U.foldl (fun st p => updateOne st.1 st.2 p.1 p.2) st).1
      (U.foldl (fun st p => updateOne st.1 st.2 p.1 p.2) st).2 k v := by
  induction U generalizing st with
  | nil => exact hpt
  | cons q U ih =>
    rw [List.foldl_cons]
    rw [List.map_cons, List.mem_cons] at hk
    push_neg at hk
    exact ih _ (updateOne_valid q.1 q.2 hv)
      (updateOne_pointsTo_frame hv hk.1 hpt) hk.2

theorem updateFold_pointsTo_all (U : List (String × JsonValue)) (st : DataFile × Index)
    (hv : ValidIdx st.1 st.2) (hnd : (U.map Prod.fst).Nodup) :
    ∀ p ∈ U, PointsTo (U.foldl (fun st p => updateOne st.1 st.2 p.1 p.2) st).1
      (U.foldl (fun st p => updateOne st.1 st.2 p.1 p.2) st).2 p.1 p.2 := by
  induction U generalizing st with
  | nil => intro p hp; simp at hp
  | cons q U ih =>
    rw [List.map_cons, List.nodup_cons] at hnd
    intro p hp
    rw [List.foldl_cons]
    rcases List.mem_cons.mp hp with h1 | h2
    · subst h1
      exact updateFold_pointsTo_frame U _ (updateOne_valid p.1 p.2 hv)
        (updateOne_pointsTo_self st.1 st.2 p.1 p.2) hnd.1
    · exact ih _ (updateOne_valid q.1 q.2 hv) hnd.2 p h2

theorem updateFold_fix (U : List (String × JsonValue)) (st : DataFile × Index)
    (h : ∀ p ∈ U, PointsTo st.1 st.2 p.1 p.2) :
    U.foldl (fun st p => updateOne st.1 st.2 p.1 p.2) st = st := by
  induction U with
  | nil => rfl
  | cons q U ih =>
    rw [List.foldl_cons]
    have hq : updateOne st.1 st.2 q.1 q.2 = (st.1, st.2) :=
      updateOne_fix (h q (List.mem_cons_self q U))
    rw [hq]
    exact ih (fun p hp => h p (List.mem_cons_of_mem q hp))

/-! ### Space-preserving delete -/

theorem deleteOne_found {f : DataFile} {ix : Index} {k : String} {off : Nat} {s : Seg}
    (h1 : alookup ix k = some off) (h2 : segAt f off = some s) :
    deleteOne f ix k = (replaceSegAt f off (Seg.blank (segLen s - 1)), eraseKey ix k) := by
  unfold deleteOne
  rw [h1]
  show (match segAt f off with
        | some s => (replaceSegAt f off (Seg.blank (segLen s - 1)), eraseKey ix k)
        | none => (f, eraseKey ix k)) = _
  rw [h2]

theorem deleteOne_badoff {f : DataFile} {ix : Index} {k : String} {off : Nat}
    (h1 : alookup ix k = some off) (h2 : segAt f off = none) :
    deleteOne f ix k = (f, eraseKey ix k) := by
  unfold deleteOne
  rw [h1]
  show (match segAt f off with
        | some s => (replaceSegAt f off (Seg.blank (segLen s - 1)), eraseKey ix k)
        | none => (f, eraseKey ix k)) = _
  rw [h2]

theorem deleteOne_absent {f : DataFile} {ix : Index} {k : String}
    (h1 : alookup ix k = none) : deleteOne f ix k = (f, ix) := by
  unfold deleteOne
  rw [h1]

theorem segLen_blank_pred (s : Seg) : segLen (Seg.blank (segLen s - 1)) = segLen s := by
  have := segLen_pos s
  show segLen s - 1 + 1 = segLen s
  omega

theorem deleteOne_size (f : DataFile) (ix : Index) (k : String) :
    fileSize (deleteOne f ix k).1 = fileSize f := by
  cases h1 : alookup ix k with
  | none => rw [deleteOne_absent h1]
  | some off =>
    cases h2 : segAt f off with
    | none => rw [deleteOne_badoff h1 h2]
    | some s =>
      rw [deleteOne_found h1 h2]
      show fileSize (replaceSegAt f off (Seg.blank (segLen s - 1))) = fileSize f
      exact fileSize_replaceSegAt f off s _ h2 (segLen_blank_pred s)

theorem deleteOne_alookup_self (f : DataFile) (ix : Index) (k : String) :
    alookup (deleteOne f ix k).2 k = none := by
  cases h1 : alookup ix k with
  | none => rw [deleteOne_absent h1]; exact h1
  | some off =>
    cases h2 : segAt f off with
    | none => rw [deleteOne_badoff h1 h2]; exact alookup_eraseKey_self ix k
    | some s => rw [deleteOne_found h1 h2]; exact alookup_eraseKey_self ix k

theorem deleteOne_alookup_other (f : DataFile) (ix : Index) (k k' : String)
    (hne : k' ≠ k) : alookup (deleteOne f ix k).2 k' = alookup ix k' := by
  cases h1 : alookup ix k with
  | none => rw [deleteOne_absent h1]
  | some off =>
    cases h2 : segAt f off with
    | none => rw [deleteOne_badoff h1 h2]; exact alookup_eraseKey_other ix k k' hne
    | some s => rw [deleteOne_found h1 h2]; exact alookup_eraseKey_other ix k k' hne

theorem deleteOne_valid {f : DataFile} {ix : Index} (k : String) (hv : ValidIdx f ix) :
    ValidIdx (deleteOne f ix k).1 (deleteOne f ix k).2 := by
  cases h1 : alookup ix k with
  | none => rw [deleteOne_absent h1]; exact hv
  | some off =>
    have herase : ((eraseKey ix k).map Prod.fst).Nodup :=
      List.Nodup.sublist (keys_eraseKey_sublist ix k) hv.1
    cases h2 : segAt f off with
    | none =>
      rw [deleteOne_badoff h1 h2]
      exact ⟨herase, fun p hp => hv.2 p (List.mem_of_mem_filter hp)⟩
    | some s =>
      rw [deleteOne_found h1 h2]
      refine ⟨herase, ?_⟩
      intro p hp
      have hpix : p ∈ ix := List.mem_of_mem_filter hp
      have hpk : ¬ (decide (p.1 ≠ k)) = false := by
        intro hc
        have := List.of_mem_filter hp
        rw [hc] at this
        exact absurd this (by simp)
      have hpkne : p.1 ≠ k := by
        by_contra hc
        exact hpk (by simp [hc])
      have hl' : alookup ix p.1 = some p.2 := mem_alookup hv.1 hpix
      have hoff : p.2 ≠ off := valid_offset_injective hv hl' h1 hpkne
      have hold : keyAt f p.2 = some p.1 := hv.2 p hpix
      rcases keyAt_eq_some_iff.mp hold with ⟨w, hsw⟩
      show keyAt (replaceSegAt f off (Seg.blank (segLen s - 1))) p.2 = some p.1
      refine keyAt_eq_some_iff.mpr ⟨w, ?_⟩
      rw [segAt_replaceSegAt_other f off p.2 s _ h2 (segLen_blank_pred s) hoff]
      exact hsw

theorem deleteOne_getVal_other {f : DataFile} {ix : Index} {k k' : String}
    (hv : ValidIdx f ix) (hne : k' ≠ k) :
    getVal (deleteOne f ix k).1 (deleteOne f ix k).2 k' = getVal f ix k' := by
  cases h1 : alookup ix k with
  | none => rw [deleteOne_absent h1]
  | some off =>
    cases h2 : segAt f off with
    | none =>
      rw [deleteOne_badoff h1 h2]
      unfold getVal
      rw [alookup_eraseKey_other ix k k' hne]
    | some s =>
      rw [deleteOne_found h1 h2]
      unfold getVal
      show (match alookup (eraseKey ix k) k' with
            | some off' => (decodeAt (replaceSegAt f off (Seg.blank (segLen s - 1))) off').map Prod.snd
            | none => none) = _
      rw [alookup_eraseKey_other ix k k' hne]
      cases hl' : alookup ix k' with
      | none => rfl
      | some off' =>
        have hoff : off' ≠ off := valid_offset_injective hv hl' h1 hne
        show (decodeAt (replaceSegAt f off (Seg.blank (segLen s - 1))) off').map Prod.snd =
          (decodeAt f off').map Prod.snd
        unfold decodeAt
        rw [segAt_replaceSegAt_other f off off' s _ h2 (segLen_blank_pred s) hoff]

/-! ### Batched delete -/

theorem deleteFold_size (K : List String) (st : DataFile × Index) :
    fileSize (K.foldl (fun st k => deleteOne st.1 st.2 k) st).1 = fileSize st.1 := by
  induction K generalizing st with
  | nil => rfl
  | cons k K ih =>
    rw [List.foldl_cons, ih]
    exact deleteOne_size st.1 st.2 k

theorem deleteFold_valid (K : List String) (st : DataFile × Index)
    (hv : ValidIdx st.1 st.2) :
    ValidIdx (K.foldl (fun st k => deleteOne st.1 st.2 k) st).1
      (K.foldl (fun st k => deleteOne st.1 st.2 k) st).2 := by
  induction K generalizing st with
  | nil => exact hv
  | cons k K ih =>
    rw [List.foldl_cons]
    exact ih _ (deleteOne_valid k hv)

theorem deleteOne_alookup_mono (f : DataFile) (ix : Index) (k k₂ : String)
    (h : alookup ix k = none) : alookup (deleteOne f ix k₂).2 k = none := by
  by_cases hk : k = k₂
  · rw [hk]; exact deleteOne_alookup_self f ix k₂
  · rw [deleteOne_alookup_other f ix k₂ k hk]; exact h

theorem deleteFold_alookup_none (K : List String) (st : DataFile × Index) (k : String)
    (h : alookup st.2 k = none) :
    alookup (K.foldl (fun st k => deleteOne st.1 st.2 k) st).2 k = none := by
  induction K generalizing st with
  | nil => exact h
  | cons k₂ K ih =>
    rw [List.foldl_cons]
    exact ih _ (deleteOne_alookup_mono st.1 st.2 k k₂ h)

theorem deleteFold_alookup_mem (K : List String) (st : DataFile × Index) (k : String)
    (hk : k ∈ K) :
    alookup (K.foldl (fun st k => deleteOne st.1 st.2 k) st).2 k = none := by
  induction K generalizing st with
  | nil => simp at hk
  | cons k₂ K ih =>
    rw [List.foldl_cons]
    rcases List.mem_cons.mp hk with h1 | h2
    · subst h1
      exact deleteFold_alookup_none K _ k (deleteOne_alookup_self st.1 st.2 k)
    · exact ih _ h2

theorem deleteFold_not_mem (K : List String) (st : DataFile × Index) (k : String)
    (hv : ValidIdx st.1 st.2) (hk : k ∉ K) :
    alookup (K.foldl (fun st k => deleteOne st.1 st.2 k) st).2 k = alookup st.2 k ∧
      getVal (K.foldl (fun st k => deleteOne st.1 st.2 k) st).1
        (K.foldl (fun st k => deleteOne st.1 st.2 k) st).2 k = getVal st.1 st.2 k := by
  induction K generalizing st with
  | nil => exact ⟨rfl, rfl⟩
  | cons k₂ K ih =>
    rw [List.mem_cons] at hk
    push_neg at hk
    rw [List.foldl_cons]
    rcases ih _ (deleteOne_valid k₂ hv) hk.2 with ⟨ha, hg⟩
    refine ⟨?_, ?_⟩
    · rw [ha, deleteOne_alookup_other st.1 st.2 k₂ k hk.1]
    · rw [hg, deleteOne_getVal_other hv hk.1]

/-! ### Select membership -/

theorem ensureIx_of_idx {S : Store} {ix : Index} (h : S.idx = some ix) :
    ensureIx S = ix := by
  unfold ensureIx
  rw [h]
  rfl

theorem mem_selectRange {S : Store} {ix : Index} (h : S.idx = some ix)
    (hv : ValidIdx S.file ix) (lo hi : Option String) (k : String) (v : JsonValue) :
    (k, v) ∈ selectRange S lo hi ↔
      inBounds lo hi k = true ∧ getVal S.file ix k = some v := by
  unfold selectRange
  rw [ensureIx_of_idx h]
  constructor
  · intro hmem
    rcases List.mem_filterMap.mp hmem with ⟨p, hp, hpf⟩
    by_cases hb : inBounds lo hi p.1 = true
    · rw [if_pos hb] at hpf
      have hpix : p ∈ ix := (List.Perm.mem_iff (List.perm_insertionSort _ ix)).mp hp
      have hkey : keyAt S.file p.2 = some p.1 := hv.2 p hpix
      have hk : k = p.1 := by
        unfold keyAt at hkey
        rw [hpf] at hkey
        exact Option.some.inj hkey
      refine ⟨hk ▸ hb, ?_⟩
      have hl : alookup ix p.1 = some p.2 := mem_alookup hv.1 hpix
      unfold getVal
      rw [hk, hl]
      show (decodeAt S.file p.2).map Prod.snd = some v
      rw [hpf]
      rfl
    · rw [if_neg hb] at hpf
      exact absurd hpf (by simp)
  · rintro ⟨hb, hg⟩
    unfold getVal at hg
    cases hl : alookup ix k with
    | none => rw [hl] at hg; exact absurd hg (by simp)
    | some off =>
      rw [hl] at hg
      have hmemix : (k, off) ∈ ix := alookup_mem hl
      have hkey : keyAt S.file off = some k := hv.2 (k, off) hmemix
      rcases keyAt_eq_some_iff.mp hkey with ⟨w, hsw⟩
      have hdec : decodeAt S.file off = some (k, w) := by unfold decodeAt; rw [hsw]
      have hw : w = v := by
        have hg' : (decodeAt S.file off).map Prod.snd = some v := hg
        rw [hdec] at hg'
        exact Option.some.inj hg'
      apply List.mem_filterMap.mpr
      refine ⟨(k, off), (List.Perm.mem_iff (List.perm_insertionSort _ ix)).mpr hmemix, ?_⟩
      show (if inBounds lo hi k then decodeAt S.file off else none) = some (k, v)
      rw [if_pos hb, hdec, hw]

theorem update_jsonl_mk (f : DataFile) (ix : Index) (U : List (String × JsonValue)) :
    update_jsonl { file := f, idx := some ix } U =
      { file := (U.foldl (fun st p => updateOne st.1 st.2 p.1 p.2) (f, ix)).1,
        idx := some (U.foldl (fun st p => updateOne st.1 st.2 p.1 p.2) (f, ix)).2 } := rfl

/-! ### Claim theorems -/

/-- C8: `build` maps each key to the byte offset of the start of that
key's last occurrence in the data file (last occurrence wins), and the
index it produces is consistent: unique keys, each entry pointing at the
start of a decodable record line carrying that key — so the index resolves
each key to its most recent line even while stale duplicate lines remain
on disk. -/
theorem claim_C8 :
    (∀ f k, alookup (build_jsonl_index f) k = (lastRec f k).map Prod.fst) ∧
    (∀ f, ValidIdx f (build_jsonl_index f)) :=
  ⟨alookup_build, valid_build⟩

/-- C6: with the index side file absent, `load` is not a fatal error: it
returns by full scan the same key→value map an indexed load (through the
rebuilt index) would return, and it rebuilds and persists the index as a
side effect. -/
theorem claim_C6 (f : DataFile) :
    (load_jsonl { file := f, idx := none }).2 =
      { file := f, idx := some (build_jsonl_index f) } ∧
    ∀ k, alookup (load_jsonl { file := f, idx := none }).1 k =
      alookup (load_jsonl { file := f, idx := some (build_jsonl_index f) }).1 k := by
  constructor
  · rfl
  · intro k
    show alookup (scanRecords f []) k = alookup (loadRecords f (build_jsonl_index f)) k
    rw [alookup_scan_eq_indexed, alookup_loadRecords (valid_build f) k]

/-- C3: for every map with unique keys, `load (save M)` returns exactly
`M` — the same key set and, for every key, the same value (here the whole
record list is equal). -/
theorem claim_C3 (M : List (String × JsonValue)) (hnd : (M.map Prod.fst).Nodup) :
    (load_jsonl (save_jsonl M)).1 = M := by
  show loadRecords (M.map fun p => Seg.record p.1 p.2)
      (build_jsonl_index (M.map fun p => Seg.record p.1 p.2)) = M
  rw [build_save M hnd]
  have h := loadRecords_zipOff M []
  rw [List.nil_append] at h
  exact h

theorem claim_C3_witness :
    (load_jsonl (save_jsonl [("a", exV "x"), ("b", exV "y")])).1 =
      [("a", exV "x"), ("b", exV "y")] :=
  claim_C3 [("a", exV "x"), ("b", exV "y")] (by decide)

/-- C2 as stated is false: with the index present and consistent, `load`
returns the records in the persisted index's entry order, which after an
append-style update is not ascending key order.  This is the recorded
notebook run: after updating `user1`, load returns
`user2, user3, user1`. -/
theorem claim_C2_counterexample :
    validIdxB exStoreUpd.file (ensureIx exStoreUpd) = true ∧
    exStoreUpd.idx = some (ensureIx exStoreUpd) ∧
    (load_jsonl exStoreUpd).1.map Prod.fst = ["user2", "user3", "user1"] ∧
    strLe "user3" "user1" = false :=
  ⟨by decide, rfl, by decide, by decide⟩

/-- C2 amended: with the index present and consistent, `load` returns one
record per index entry, in index order (not necessarily ascending key
order), and for every key the value the index resolves it to. -/
theorem claim_C2 (S : Store) (ix : Index) (h : S.idx = some ix)
    (hv : ValidIdx S.file ix) :
    (load_jsonl S).1.map Prod.fst = ix.map Prod.fst ∧
    ∀ k, alookup (load_jsonl S).1 k = getVal S.file ix k := by
  have hl : (load_jsonl S).1 = loadRecords S.file ix := by
    unfold load_jsonl
    rw [h]
  rw [hl]
  exact ⟨loadRecords_keys hv.2, fun k => alookup_loadRecords hv k⟩

theorem claim_C2_witness :
    (load_jsonl exStoreUpd).1.map Prod.fst = (ensureIx exStoreUpd).map Prod.fst :=
  (claim_C2 exStoreUpd (ensureIx exStoreUpd) rfl
    ((validIdxB_iff _ _).mp (by decide))).1

/-- C10: `save_jsonldf` rejects a non-unique index with `ValueError`,
leaving the store unchanged, and with a unique index saves exactly the
table's rows keyed by their index labels via `save_jsonl`. -/
theorem claim_C10 (old : Store) (df : DataFrame) :
    (dfIndexIsUnique df = false →
      save_jsonldf old df = (Except.error StoreErr.valueError, old)) ∧
    (dfIndexIsUnique df = true →
      save_jsonldf old df = (Except.ok (), save_jsonl df.rows)) := by
  constructor
  · intro hf
    unfold save_jsonldf
    rw [if_neg (by rw [hf]; simp)]
  · intro ht
    unfold save_jsonldf
    rw [if_pos ht]

theorem claim_C10_witness :
    save_jsonldf exStore exDF = (Except.error StoreErr.valueError, exStore) :=
  (claim_C10 exStore exDF).1 (by decide)

/-- C1 as stated is false: delete is space-preserving, not a rewrite.  In
the recorded scenario (two records, delete one) the data file keeps its
byte size, still holds two physical lines, and does not shrink by the
deleted line's length — while the logical map does lose the key. -/
theorem claim_C1_counterexample :
    fileSize (delete_jsonl exPair ["loc2"]).file = fileSize exPair.file ∧
    fileSize (delete_jsonl exPair ["loc2"]).file ≠
      fileSize exPair.file - lineLen "loc2" (exV "b") ∧
    (load_jsonl (delete_jsonl exPair ["loc2"])).1.map Prod.fst = ["loc1"] ∧
    ((delete_jsonl exPair ["loc2"]).file).length = 2 :=
  ⟨by decide, by decide, by decide, by decide⟩

/-- C1 amended: `delete` overwrites each deleted key's line in place (the
data file's byte size is unchanged — space-preserving deletion), removes
exactly the deleted keys from the index, and leaves every surviving key's
index entry and record untouched. -/
theorem claim_C1 (S : Store) (ix : Index) (K : List String)
    (h : S.idx = some ix) (hv : ValidIdx S.file ix) :
    fileSize (delete_jsonl S K).file = fileSize S.file ∧
    (∀ k ∈ K, alookup (ensureIx (delete_jsonl S K)) k = none) ∧
    (∀ k ∉ K, alookup (ensureIx (delete_jsonl S K)) k = alookup ix k ∧
      getVal (delete_jsonl S K).file (ensureIx (delete_jsonl S K)) k =
        getVal S.file ix k) := by
  have hix : ensureIx S = ix := ensureIx_of_idx h
  have hd : delete_jsonl S K =
      { file := (K.foldl (fun st k => deleteOne st.1 st.2 k) (S.file, ix)).1,
        idx := some (K.foldl (fun st k => deleteOne st.1 st.2 k) (S.file, ix)).2 } := by
    unfold delete_jsonl
    rw [hix]
  rw [hd]
  refine ⟨deleteFold_size K (S.file, ix), ?_, ?_⟩
  · intro k hk
    exact deleteFold_alookup_mem K (S.file, ix) k hk
  · intro k hk
    exact deleteFold_not_mem K (S.file, ix) k hv hk

theorem claim_C1_witness :
    fileSize (delete_jsonl exPair ["loc2"]).file = fileSize exPair.file :=
  (claim_C1 exPair (ensureIx exPair) ["loc2"] rfl
    ((validIdxB_iff _ _).mp (by decide))).1

/-- C7: after `delete (path, K)` the loaded map contains no key of `K`,
every other key keeps its value, and a key of `K` that was absent is a
per-key no-op, not an error. -/
theorem claim_C7 (S : Store) (ix : Index) (K : List String)
    (h : S.idx = some ix) (hv : ValidIdx S.file ix) :
    (∀ k ∈ K, alookup (load_jsonl (delete_jsonl S K)).1 k = none) ∧
    (∀ k ∉ K, alookup (load_jsonl (delete_jsonl S K)).1 k =
      alookup (load_jsonl S).1 k) ∧
    (∀ k, alookup ix k = none → deleteOne S.file ix k = (S.file, ix)) := by
  have hix : ensureIx S = ix := ensureIx_of_idx h
  have hd : delete_jsonl S K =
      { file := (K.foldl (fun st k => deleteOne st.1 st.2 k) (S.file, ix)).1,
        idx := some (K.foldl (fun st k => deleteOne st.1 st.2 k) (S.file, ix)).2 } := by
    unfold delete_jsonl
    rw [hix]
  have hvf := deleteFold_valid K (S.file, ix) hv
  have hload : (load_jsonl (delete_jsonl S K)).1 =
      loadRecords (K.foldl (fun st k => deleteOne st.1 st.2 k) (S.file, ix)).1
        (K.foldl (fun st k => deleteOne st.1 st.2 k) (S.file, ix)).2 := by
    rw [hd]
    rfl
  have hloadS : (load_jsonl S).1 = loadRecords S.file ix := by
    unfold load_jsonl
    rw [h]
  refine ⟨?_, ?_, ?_⟩
  · intro k hk
    rw [hload, alookup_loadRecords hvf k]
    unfold getVal
    rw [deleteFold_alookup_mem K (S.file, ix) k hk]
  · intro k hk
    rw [hload, alookup_loadRecords hvf k, hloadS, alookup_loadRecords hv k]
    exact (deleteFold_not_mem K (S.file, ix) k hv hk).2
  · intro k hk
    exact deleteOne_absent hk

theorem claim_C7_witness :
    alookup (load_jsonl (delete_jsonl exPair ["loc2", "missing"])).1 "loc2" = none :=
  (claim_C7 exPair (ensureIx exPair) ["loc2", "missing"] rfl
    ((validIdxB_iff _ _).mp (by decide))).1 "loc2" (by decide)

/-- C4: `select` with both bounds present succeeds exactly when
lower ≤ upper (else `RangeError`), and its result holds exactly the stored
records whose key lies in the closed interval; an omitted bound is
unbounded on that side. -/
theorem claim_C4 (S : Store) (ix : Index) (h : S.idx = some ix)
    (hv : ValidIdx S.file ix) :
    (∀ l u, strLe l u = true →
      select_jsonl S (some l) (some u) =
        Except.ok (selectRange S (some l) (some u))) ∧
    (∀ l u, strLe l u = false →
      select_jsonl S (some l) (some u) = Except.error StoreErr.rangeError) ∧
    (∀ u, select_jsonl S none (some u) = Except.ok (selectRange S none (some u))) ∧
    (∀ l, select_jsonl S (some l) none = Except.ok (selectRange S (some l) none)) ∧
    (select_jsonl S none none = Except.ok (selectRange S none none)) ∧
    (∀ lo hi k v, (k, v) ∈ selectRange S lo hi ↔
      inBounds lo hi k = true ∧ getVal S.file ix k = some v) := by
  refine ⟨?_, ?_, fun u => rfl, fun l => rfl, rfl, fun lo hi k v => mem_selectRange h hv lo hi k v⟩
  · intro l u hle
    show (if strLe l u = true then Except.ok (selectRange S (some l) (some u))
          else Except.error StoreErr.rangeError) = _
    rw [if_pos hle]
  · intro l u hle
    show (if strLe l u = true then Except.ok (selectRange S (some l) (some u))
          else Except.error StoreErr.rangeError) = _
    rw [if_neg (by simp [hle])]

theorem claim_C4_witness :
    select_jsonl exStore (some "user3") (some "user1") =
      Except.error StoreErr.rangeError ∧
    (("user1", exV "x") ∈ selectRange exStore (some "user1") (some "user2") ↔
      inBounds (some "user1") (some "user2") "user1" = true ∧
      getVal exStore.file (ensureIx exStore) "user1" = some (exV "x")) :=
  ⟨(claim_C4 exStore (ensureIx exStore) rfl
      ((validIdxB_iff _ _).mp (by decide))).2.1 "user3" "user1" (by decide),
   (claim_C4 exStore (ensureIx exStore) rfl
      ((validIdxB_iff _ _).mp (by decide))).2.2.2.2.2 (some "user1") (some "user2")
      "user1" (exV "x")⟩

/-- C5: `update` decides per key — an existing key whose new line has the
same byte length is overwritten in place (file size and all offsets
unchanged, every other line untouched); a new key, or an existing key
whose line length changed, is appended at end of file with only that key's
index entry repointed to the appended offset; and over any batch the data
file never shrinks. -/
theorem claim_C5 (S : Store) (ix : Index) (h : S.idx = some ix) :
    (∀ k v off s, alookup ix k = some off → segAt S.file off = some s →
      segLen s = lineLen k v →
      update_jsonl S [(k, v)] =
        { file := replaceSegAt S.file off (Seg.record k v), idx := some ix } ∧
      fileSize (replaceSegAt S.file off (Seg.record k v)) = fileSize S.file ∧
      ∀ off', off' ≠ off →
        segAt (replaceSegAt S.file off (Seg.record k v)) off' = segAt S.file off') ∧
    (∀ k v, alookup ix k = none →
      update_jsonl S [(k, v)] =
        { file := S.file ++ [Seg.record k v],
          idx := some (ix ++ [(k, fileSize S.file)]) }) ∧
    (∀ k v off s, alookup ix k = some off → segAt S.file off = some s →
      segLen s ≠ lineLen k v →
      update_jsonl S [(k, v)] =
        { file := S.file ++ [Seg.record k v],
          idx := some (eraseKey ix k ++ [(k, fileSize S.file)]) } ∧
      alookup (eraseKey ix k ++ [(k, fileSize S.file)]) k = some (fileSize S.file) ∧
      ∀ k', k' ≠ k →
        alookup (eraseKey ix k ++ [(k, fileSize S.file)]) k' = alookup ix k') ∧
    (∀ U, fileSize S.file ≤ fileSize (update_jsonl S U).file) := by
  have hix : ensureIx S = ix := ensureIx_of_idx h
  have hsingle : ∀ k v, update_jsonl S [(k, v)] =
      { file := (updateOne S.file ix k v).1, idx := some (updateOne S.file ix k v).2 } := by
    intro k v
    unfold update_jsonl
    rw [hix]
    rfl
  refine ⟨?_, ?_, ?_, ?_⟩
  · intro k v off s h1 h2 h3
    refine ⟨?_,
      fileSize_replaceSegAt S.file off s _ h2 (by show lineLen k v = segLen s; exact h3.symm),
      fun off' hne => segAt_replaceSegAt_other S.file off off' s _ h2
        (by show lineLen k v = segLen s; exact h3.symm) hne⟩
    rw [hsingle k v, updateOne_inplace h1 h2 h3]
  · intro k v h1
    rw [hsingle k v, updateOne_new h1, eraseKey_of_alookup_none ix k h1]
  · intro k v off s h1 h2 h3
    refine ⟨?_, ?_, ?_⟩
    · rw [hsingle k v, updateOne_grow h1 h2 h3]
    · rw [alookup_append, alookup_eraseKey_self]
      show alookup [(k, fileSize S.file)] k = some (fileSize S.file)
      rw [alookup_cons, if_pos rfl]
    · intro k' hne
      rw [alookup_append, alookup_eraseKey_other ix k k' hne]
      cases hl : alookup ix k' with
      | some a => rfl
      | none =>
        rw [alookup_cons, if_neg (fun hc : (k, fileSize S.file).1 = k' => hne hc.symm)]
        rfl
  · intro U
    have hu : update_jsonl S U =
        { file := (U.foldl (fun st p => updateOne st.1 st.2 p.1 p.2) (S.file, ix)).1,
          idx := some (U.foldl (fun st p => updateOne st.1 st.2 p.1 p.2) (S.file, ix)).2 } := by
      unfold update_jsonl
      rw [hix]
    rw [hu]
    exact updateFold_size_le U (S.file, ix)

theorem claim_C5_witness :
    fileSize exStore.file ≤ fileSize (update_jsonl exStore [("user1", exV "xxxx")]).file ∧
    update_jsonl exStore [("user1", exV "xxxx")] =
      { file := exStore.file ++ [Seg.record "user1" (exV "xxxx")],
        idx := some (eraseKey (ensureIx exStore) "user1" ++
          [("user1", fileSize exStore.file)]) } :=
  ⟨(claim_C5 exStore (ensureIx exStore) rfl).2.2.2 [("user1", exV "xxxx")],
   ((claim_C5 exStore (ensureIx exStore) rfl).2.2.1 "user1" (exV "xxxx") 0
      (Seg.record "user1" (exV "x")) rfl rfl (by decide)).1⟩

/-- C9: applying the same update map twice yields the same `load` result
as applying it once — the second pass finds every key already pointing at
a line of exactly the new encoding's length and rewrites it in place with
identical bytes. -/
theorem claim_C9 (S : Store) (ix : Index) (U : List (String × JsonValue))
    (h : S.idx = some ix) (hv : ValidIdx S.file ix)
    (hnd : (U.map Prod.fst).Nodup) :
    (load_jsonl (update_jsonl (update_jsonl S U) U)).1 =
      (load_jsonl (update_jsonl S U)).1 := by
  have hix : ensureIx S = ix := ensureIx_of_idx h
  have h1 : update_jsonl S U =
      { file := (U.foldl (fun st p => updateOne st.1 st.2 p.1 p.2) (S.file, ix)).1,
        idx := some (U.foldl (fun st p => updateOne st.1 st.2 p.1 p.2) (S.file, ix)).2 } := by
    unfold update_jsonl
    rw [hix]
  have hall : ∀ p ∈ U,
      PointsTo (U.foldl (fun st p => updateOne st.1 st.2 p.1 p.2) (S.file, ix)).1
        (U.foldl (fun st p => updateOne st.1 st.2 p.1 p.2) (S.file, ix)).2 p.1 p.2 :=
    updateFold_pointsTo_all U (S.file, ix) hv hnd
  have heta : ((U.foldl (fun st p => updateOne st.1 st.2 p.1 p.2) (S.file, ix)).1,
      (U.foldl (fun st p => updateOne st.1 st.2 p.1 p.2) (S.file, ix)).2) =
      U.foldl (fun st p => updateOne st.1 st.2 p.1 p.2) (S.file, ix) := rfl
  have h2 : update_jsonl (update_jsonl S U) U = update_jsonl S U := by
    rw [h1, update_jsonl_mk, heta, updateFold_fix U _ hall]
  rw [h2]

theorem claim_C9_witness :
    (load_jsonl (update_jsonl (update_jsonl exStore exU) exU)).1 =
      (load_jsonl (update_jsonl exStore exU)).1 :=
  claim_C9 exStore (ensureIx exStore) exU rfl
    ((validIdxB_iff _ _).mp (by decide)) (by decide)

end Jsonldb
